import Mathlib

/-!
Verification development for the py-vault-serial-wrapper repository.

The Python sources are shallowly embedded: strings are `List Char`, Python
exceptions are modelled with `Except PyErr`, and stateful methods are pure
functions from the relevant state to the new state plus their observable
effects.  Every definition mirrors a specific function of the sources
(`REPLace.py`, `esp_wifi_serial.py`, `serial_connection_wrapper.py`,
`esp_serial_connection.py`); the file and line references are given in the
doc comments.
-/

namespace VaultSerial

/-! ### Python string primitives

Python `str.strip` / `lstrip` / `rstrip` with no argument remove the ASCII
whitespace characters; `isPySpace` lists the characters Python treats as
whitespace for `str.strip()`. -/

/-- Characters removed by Python `str.strip()` and friends. -/
def isPySpace (c : Char) : Bool :=
  c = ' ' || c = '\t' || c = '\n' || c = '\r' || c = '\x0b' || c = '\x0c'

/-- Python `s.lstrip()`. -/
def pyLstrip (s : List Char) : List Char := s.dropWhile isPySpace

/-- Python `s.rstrip()`. -/
def pyRstrip (s : List Char) : List Char := (s.reverse.dropWhile isPySpace).reverse

/-- Python `s.strip()`. -/
def pyStrip (s : List Char) : List Char := pyLstrip (pyRstrip s)

/-! ### Line framer (`REPLace.py`, `Uploader.recv`, lines 180-222)

`Uploader.recv` appends the decoded data read during one call to
`self.rbuffer` (line 198), removes every carriage return from the buffer
(line 206), then repeatedly slices out the text before the first newline as
a completed line (lines 209-212), logging it only when it has non-blank
content (lines 213-214); finally the buffer is truncated to its most recent
`MAX_BUFFER` characters when it grew beyond that bound (lines 221-222).

One `recvStep` models one call of `recv` and takes the concatenation of all
chunks read during that call (the read loop of lines 193-203 only
concatenates the decoded chunks before any processing, so feeding the
concatenation is exact).  Decoding with `errors='replace'` means the input
to the framer is always valid text; we model it as the decoded `List Char`
directly. -/

/-- `MAX_BUFFER` from `REPLace.py` line 38. -/
def MAX_BUFFER : Nat := 100000

/-- Line 206: `self.rbuffer = self.rbuffer.replace('\r', '')`. -/
def removeCR (s : List Char) : List Char := s.filter (fun c => c ≠ '\r')

/-- The while-loop of lines 209-212: while a newline is present, slice out
the text before the first newline as a completed line and keep the rest.
Returns the completed lines in order and the remaining partial text.
`fuel` bounds the number of iterations; each iteration removes at least the
newline character, so `buf.length` iterations always suffice (see
`extractLines`). -/
def extractLinesF : Nat → List Char → List (List Char) × List Char
  | 0, buf => ([], buf)
  | fuel + 1, buf =>
    if '\n' ∈ buf then
      let line := buf.takeWhile (fun c => c ≠ '\n')
      let rest := buf.drop (line.length + 1)
      let p := extractLinesF fuel rest
      (line :: p.1, p.2)
    else ([], buf)

/-- The while-loop of lines 209-212 (with enough fuel for any input). -/
def extractLines (buf : List Char) : List (List Char) × List Char :=
  extractLinesF buf.length buf

/-- Lines 221-222: `if len(self.rbuffer) > self.MAX_BUFFER:
self.rbuffer = self.rbuffer[-self.MAX_BUFFER:]`. -/
def truncateBuf (s : List Char) : List Char :=
  if s.length > MAX_BUFFER then s.drop (s.length - MAX_BUFFER) else s

/-- One call of `Uploader.recv` (with `done=False`), fed the concatenation
`chunk` of the data read during the call.  Returns
(completed lines sliced from the buffer,
 lines actually logged — line 213 skips lines whose `strip()` is empty,
 the retained buffer). -/
def recvStep (buf chunk : List Char) : List (List Char) × List (List Char) × List Char :=
  let b := removeCR (buf ++ chunk)
  let p := extractLines b
  (p.1, p.1.filter (fun l => !(pyStrip l).isEmpty), truncateBuf p.2)

/-- A sequence of `recv` calls starting from buffer `buf`, accumulating the
completed and the logged lines. -/
def recvRunFrom (buf : List Char) : List (List Char) → List (List Char) × List (List Char) × List Char
  | [] => ([], [], buf)
  | chunk :: rest =>
    let p := recvStep buf chunk
    let q := recvRunFrom p.2.2 rest
    (p.1 ++ q.1, p.2.1 ++ q.2.1, q.2.2)

/-- A sequence of `recv` calls starting from the initial empty buffer
(`self.rbuffer = ''`, `REPLace.py` line 69). -/
def recvRun (chunks : List (List Char)) : List (List Char) × List (List Char) × List Char :=
  recvRunFrom [] chunks

/-! ### Specification-side segmentation

`splitNl` is the list of newline-delimited segments of a text, in order;
the framer is proved against it below. -/

/-- Prepend a character to the first segment of a segmentation. -/
def consHead (c : Char) : List (List Char) → List (List Char)
  | [] => [[c]]
  | f :: r => (c :: f) :: r

/-- Newline-delimited segments of a text: `"a\nb"` has segments
`["a", "b"]` and `"a\n"` has segments `["a", ""]`. -/
def splitNl : List Char → List (List Char)
  | [] => [[]]
  | c :: cs => if c = '\n' then [] :: splitNl cs else consHead c (splitNl cs)

example : splitNl "a\nb".toList = [['a'], ['b']] := by decide
example : extractLines "ab\nc\n d".toList = ([['a','b'], ['c']], [' ', 'd']) := by decide
example : recvStep [] "a\r\nb".toList = ([['a']], [['a']], ['b']) := by decide
example : recvStep [] "\n".toList = ([[]], [], []) := by decide

/-! ### Lemmas about the segmentation -/

theorem consHead_ne_nil (c : Char) (ls : List (List Char)) : consHead c ls ≠ [] := by
  cases ls <;> simp [consHead]

theorem splitNl_ne_nil (l : List Char) : splitNl l ≠ [] := by
  induction l with
  | nil => simp [splitNl]
  | cons c cs ih =>
    by_cases h : c = '\n' <;> simp [splitNl, h, consHead_ne_nil]

theorem splitNl_cons_nl (cs : List Char) : splitNl ('\n' :: cs) = [] :: splitNl cs := by
  rw [splitNl, if_pos rfl]

theorem splitNl_cons_of_ne {c : Char} (h : c ≠ '\n') (cs : List Char) :
    splitNl (c :: cs) = consHead c (splitNl cs) := by
  rw [splitNl, if_neg h]

theorem splitNl_of_not_mem_nl {l : List Char} (h : '\n' ∉ l) : splitNl l = [l] := by
  induction l with
  | nil => rfl
  | cons c cs ih =>
    simp only [List.mem_cons, not_or] at h
    rw [splitNl_cons_of_ne (fun hc => h.1 hc.symm), ih h.2, consHead]

theorem length_splitNl (l : List Char) : (splitNl l).length = l.count '\n' + 1 := by
  induction l with
  | nil => rfl
  | cons c cs ih =>
    by_cases h : c = '\n'
    · subst h; simp [splitNl_cons_nl, ih, List.count_cons]
    · obtain ⟨f, r, hs⟩ := List.exists_cons_of_ne_nil (splitNl_ne_nil cs)
      rw [splitNl_cons_of_ne h, hs, consHead, List.count_cons]
      have hlen : (f :: r).length = cs.count '\n' + 1 := by rw [← hs, ih]
      simp only [List.length_cons] at hlen ⊢
      simp [hlen, h, Ne.symm h]

theorem splitNl_mem_props {l : List Char} :
    ∀ seg ∈ splitNl l, (∀ c ∈ seg, c ∈ l) ∧ '\n' ∉ seg := by
  induction l with
  | nil =>
    intro seg hseg
    simp only [splitNl, List.mem_singleton] at hseg
    subst hseg
    exact ⟨fun c hc => absurd hc (List.not_mem_nil c), List.not_mem_nil _⟩
  | cons d ds ih =>
    intro seg hseg
    by_cases h : d = '\n'
    · subst h
      rw [splitNl_cons_nl] at hseg
      rcases List.mem_cons.1 hseg with rfl | hseg
      · exact ⟨fun c hc => absurd hc (List.not_mem_nil c), List.not_mem_nil _⟩
      · obtain ⟨hsub, hnl⟩ := ih seg hseg
        exact ⟨fun c hc => List.mem_cons_of_mem _ (hsub c hc), hnl⟩
    · obtain ⟨f, r, hs⟩ := List.exists_cons_of_ne_nil (splitNl_ne_nil ds)
      rw [splitNl_cons_of_ne h, hs, consHead] at hseg
      have hmemf : f ∈ splitNl ds := by rw [hs]; exact List.mem_cons_self f r
      rcases List.mem_cons.1 hseg with rfl | hseg
      · refine ⟨fun c hc => ?_, fun hmem => ?_⟩
        · rcases List.mem_cons.1 hc with rfl | hc
          · exact List.mem_cons_self c ds
          · exact List.mem_cons_of_mem _ ((ih f hmemf).1 c hc)
        · rcases List.mem_cons.1 hmem with hd | hmem
          · exact h hd.symm
          · exact (ih f hmemf).2 hmem
      · have : seg ∈ splitNl ds := by rw [hs]; exact List.mem_cons_of_mem f hseg
        obtain ⟨hsub, hnl⟩ := ih seg this
        exact ⟨fun c hc => List.mem_cons_of_mem _ (hsub c hc), hnl⟩

theorem not_nl_mem_splitNl {l seg : List Char} (hseg : seg ∈ splitNl l) : '\n' ∉ seg :=
  (splitNl_mem_props seg hseg).2

theorem mem_of_mem_splitNl {l seg : List Char} {c : Char}
    (hseg : seg ∈ splitNl l) (hc : c ∈ seg) : c ∈ l :=
  (splitNl_mem_props seg hseg).1 c hc

theorem splitNl_append_of_not_nl {a : List Char} (b : List Char) (h : '\n' ∉ a) :
    splitNl (a ++ b) = (a ++ (splitNl b).headI) :: (splitNl b).tail := by
  induction a with
  | nil =>
    obtain ⟨f, r, hb⟩ := List.exists_cons_of_ne_nil (splitNl_ne_nil b)
    rw [List.nil_append, hb]
    simp
  | cons c cs ih =>
    simp only [List.mem_cons, not_or] at h
    rw [List.cons_append, splitNl_cons_of_ne (fun hc => h.1 hc.symm), ih h.2, consHead,
      List.cons_append]

/-- Splitting a concatenation: the segments of `x` except its last, followed by
the segments of the last segment of `x` glued onto `z`. -/
theorem splitNl_append_eq_dropLast_append (x z : List Char) :
    splitNl (x ++ z) = (splitNl x).dropLast ++ splitNl ((splitNl x).getLastD [] ++ z) := by
  induction x with
  | nil => simp [splitNl]
  | cons c cs ih =>
    obtain ⟨f, r, hs⟩ := List.exists_cons_of_ne_nil (splitNl_ne_nil cs)
    by_cases h : c = '\n'
    · subst h
      simp only [List.cons_append, splitNl_cons_nl, ih, hs, List.getLastD_cons,
        List.dropLast_cons_of_ne_nil (List.cons_ne_nil f r)]
    · simp only [List.cons_append, splitNl_cons_of_ne h, ih, hs, consHead]
      cases r with
      | nil =>
        simp only [consHead, List.dropLast_single, List.nil_append, List.getLastD_cons,
          List.getLastD_nil]
        rw [List.cons_append, splitNl_cons_of_ne h]
        simp [List.getLastD_cons, List.getLastD_nil, consHead]
      | cons s2 ss =>
        simp [consHead, List.getLastD_cons, List.dropLast_cons₂]

/-! ### The while-loop agrees with the segmentation -/

theorem nl_not_mem_takeWhile (buf : List Char) :
    '\n' ∉ buf.takeWhile (fun c => c ≠ '\n') := by
  intro hmem
  have := List.mem_takeWhile_imp hmem
  simp at this

theorem dropWhile_eq_drop_len {α : Type} (p : α → Bool) :
    ∀ l : List α, l.dropWhile p = l.drop (l.takeWhile p).length := by
  intro l
  induction l with
  | nil => rfl
  | cons c cs ih =>
    by_cases h : p c
    · simp [List.dropWhile_cons, List.takeWhile_cons, h, ih]
    · simp [List.dropWhile_cons, List.takeWhile_cons, h]

/-- Where the loop body slices: a buffer containing a newline is its first
line, the newline, and the rest. -/
theorem nl_decomp {buf : List Char} (h : '\n' ∈ buf) :
    buf = buf.takeWhile (fun c => c ≠ '\n') ++
      '\n' :: buf.drop ((buf.takeWhile (fun c => c ≠ '\n')).length + 1) := by
  have hD : buf.dropWhile (fun c => c ≠ '\n') ≠ [] := by
    intro hnil
    have := List.dropWhile_eq_nil_iff.1 hnil '\n' h
    simp at this
  have hhead : (buf.dropWhile (fun c => c ≠ '\n')).head hD = '\n' := by
    have := List.head_dropWhile_not (fun c => (c ≠ '\n' : Bool)) buf hD
    simpa using this
  have hsplit := List.takeWhile_append_dropWhile (fun c => (c ≠ '\n' : Bool)) buf
  have htail : (buf.dropWhile (fun c => c ≠ '\n')).tail
      = buf.drop ((buf.takeWhile (fun c => c ≠ '\n')).length + 1) := by
    rw [dropWhile_eq_drop_len]
    rw [← List.drop_one, List.drop_drop]
  calc buf = buf.takeWhile (fun c => c ≠ '\n') ++ buf.dropWhile (fun c => c ≠ '\n') :=
        hsplit.symm
    _ = buf.takeWhile (fun c => c ≠ '\n') ++
        ((buf.dropWhile (fun c => c ≠ '\n')).head hD) ::
          (buf.dropWhile (fun c => c ≠ '\n')).tail := by
        rw [List.head_cons_tail]
    _ = _ := by rw [hhead, htail]

theorem extractLinesF_spec : ∀ (fuel : Nat) (buf : List Char), buf.length ≤ fuel →
    extractLinesF fuel buf = ((splitNl buf).dropLast, (splitNl buf).getLastD []) := by
  intro fuel
  induction fuel with
  | zero =>
    intro buf hlen
    have : buf = [] := List.eq_nil_of_length_eq_zero (Nat.le_zero.1 hlen)
    subst this; rfl
  | succ fuel ih =>
    intro buf hlen
    by_cases h : '\n' ∈ buf
    · have hdec := nl_decomp h
      set T := buf.takeWhile (fun c => c ≠ '\n') with hT
      set R := buf.drop (T.length + 1) with hR
      have hTnl : '\n' ∉ T := nl_not_mem_takeWhile buf
      have hRlen : R.length ≤ fuel := by
        have : buf.length = T.length + 1 + R.length := by
          conv_lhs => rw [hdec]
          simp [List.length_append]
          omega
        omega
      rw [extractLinesF, if_pos h]
      simp only
      rw [ih R hRlen]
      have hsn : splitNl buf = T :: splitNl R := by
        conv_lhs => rw [hdec]
        rw [splitNl_append_of_not_nl _ hTnl]
        rw [splitNl_cons_nl]
        obtain ⟨f, r, hr⟩ := List.exists_cons_of_ne_nil (splitNl_ne_nil R)
        rw [hr]
        simp
      rw [hsn]
      obtain ⟨f, r, hr⟩ := List.exists_cons_of_ne_nil (splitNl_ne_nil R)
      rw [hr]
      simp only [List.dropLast_cons_of_ne_nil (List.cons_ne_nil f r), List.getLastD_cons]
    · rw [extractLinesF, if_neg h, splitNl_of_not_mem_nl h]
      rfl

theorem extractLines_eq (buf : List Char) :
    extractLines buf = ((splitNl buf).dropLast, (splitNl buf).getLastD []) :=
  extractLinesF_spec buf.length buf (Nat.le_refl _)

/-! ### Properties of carriage-return removal and truncation -/

theorem removeCR_append (a b : List Char) :
    removeCR (a ++ b) = removeCR a ++ removeCR b := by
  simp [removeCR]

theorem cr_not_mem_removeCR (s : List Char) : '\r' ∉ removeCR s := by
  intro h
  have := List.of_mem_filter h
  simp at this

theorem removeCR_eq_self {s : List Char} (h : '\r' ∉ s) : removeCR s = s := by
  rw [removeCR, List.filter_eq_self]
  intro a ha
  simp only [decide_eq_true_eq]
  exact fun he => h (he ▸ ha)

theorem truncateBuf_of_le {s : List Char} (h : s.length ≤ MAX_BUFFER) :
    truncateBuf s = s := by
  rw [truncateBuf, if_neg (by omega)]

theorem truncateBuf_suffix (s : List Char) : truncateBuf s <:+ s := by
  rw [truncateBuf]
  by_cases h : s.length > MAX_BUFFER
  · rw [if_pos h]; exact List.drop_suffix _ s
  · rw [if_neg h]

theorem length_truncateBuf (s : List Char) :
    (truncateBuf s).length = min s.length MAX_BUFFER := by
  rw [truncateBuf]
  by_cases h : s.length > MAX_BUFFER
  · rw [if_pos h, List.length_drop]; omega
  · rw [if_neg h]; omega

theorem getLastD_mem_of_ne_nil {α : Type} {l : List α} (d : α) (h : l ≠ []) :
    l.getLastD d ∈ l := by
  obtain ⟨f, r, hl⟩ := List.exists_cons_of_ne_nil h
  subst hl
  rw [List.getLastD_cons]
  exact List.getLastD_mem_cons r f

/-! ### The framing property over a whole run of `recv` calls -/

theorem recvRunFrom_spec : ∀ (chunks : List (List Char)) (buf : List Char),
    '\n' ∉ buf → '\r' ∉ buf →
    (∀ seg ∈ splitNl (buf ++ removeCR chunks.flatten), seg.length ≤ MAX_BUFFER) →
    recvRunFrom buf chunks =
      ((splitNl (buf ++ removeCR chunks.flatten)).dropLast,
       ((splitNl (buf ++ removeCR chunks.flatten)).dropLast).filter
         (fun l => !(pyStrip l).isEmpty),
       (splitNl (buf ++ removeCR chunks.flatten)).getLastD []) := by
  intro chunks
  induction chunks with
  | nil =>
    intro buf hn _hr _hseg
    simp only [List.flatten_nil, removeCR, List.filter_nil, List.append_nil]
    rw [splitNl_of_not_mem_nl hn]
    rfl
  | cons ch rest ih =>
    intro buf hn hr hseg
    have hB : removeCR (buf ++ ch) = buf ++ removeCR ch := by
      rw [removeCR_append, removeCR_eq_self hr]
    have hG : buf ++ removeCR ((ch :: rest).flatten)
        = (buf ++ removeCR ch) ++ removeCR rest.flatten := by
      rw [List.flatten_cons, removeCR_append, List.append_assoc]
    set B := buf ++ removeCR ch with hBdef
    set Z := removeCR rest.flatten with hZdef
    set S1 := splitNl B with hS1
    set r := S1.getLastD [] with hrdef
    have hrS1 : r ∈ S1 := getLastD_mem_of_ne_nil [] (splitNl_ne_nil B)
    have hrn : '\n' ∉ r := not_nl_mem_splitNl hrS1
    have hrr : '\r' ∉ r := by
      intro hmem
      have : '\r' ∈ B := mem_of_mem_splitNl hrS1 hmem
      rcases List.mem_append.1 this with hc | hc
      · exact hr hc
      · exact cr_not_mem_removeCR ch hc
    have hglue : splitNl (B ++ Z) = S1.dropLast ++ splitNl (r ++ Z) :=
      splitNl_append_eq_dropLast_append B Z
    have hsegG : ∀ seg ∈ splitNl (B ++ Z), seg.length ≤ MAX_BUFFER := by
      intro seg hs
      exact hseg seg (by rw [hG]; exact hs)
    have hsegRZ : ∀ seg ∈ splitNl (r ++ Z), seg.length ≤ MAX_BUFFER := by
      intro seg hs
      exact hsegG seg (by rw [hglue]; exact List.mem_append_right _ hs)
    have hrlen : r.length ≤ MAX_BUFFER := by
      have hmem : (r ++ (splitNl Z).headI) ∈ splitNl (r ++ Z) := by
        rw [splitNl_append_of_not_nl Z hrn]
        exact List.mem_cons_self _ _
      have := hsegRZ _ hmem
      rw [List.length_append] at this
      omega
    have hstep : recvStep buf ch = (S1.dropLast,
        S1.dropLast.filter (fun l => !(pyStrip l).isEmpty), r) := by
      rw [recvStep]
      simp only [hB, extractLines_eq, ← hBdef, ← hS1, ← hrdef]
      rw [truncateBuf_of_le hrlen]
    have hIH := ih r hrn hrr hsegRZ
    have hne : splitNl (r ++ Z) ≠ [] := splitNl_ne_nil _
    show (let p := recvStep buf ch
          let q := recvRunFrom p.2.2 rest
          (p.1 ++ q.1, p.2.1 ++ q.2.1, q.2.2)) = _
    rw [hstep]
    simp only
    rw [hIH]
    rw [hG, hglue]
    refine congrArg₂ _ ?_ (congrArg₂ _ ?_ ?_)
    · rw [List.dropLast_append_of_ne_nil _ hne]
    · rw [List.dropLast_append_of_ne_nil _ hne, List.filter_append]
    · rw [List.getLastD_eq_getLast?, List.getLastD_eq_getLast?, List.getLast?_append]
      obtain ⟨f, rr, hfr⟩ := List.exists_cons_of_ne_nil hne
      rw [hfr]
      rw [List.getLast?_eq_getLast (f :: rr) (List.cons_ne_nil f rr)]
      rfl

/-- C1 counterexample: a single chunk whose text contains exactly one
newline character (a blank line) surfaces no Line at all — `recv` logs a
completed line only when its stripped content is non-empty
(`REPLace.py` lines 213-214), so the claim "exactly k completed Lines are
surfaced" fails at k = 1. -/
theorem recv_line_framing_cex :
    (removeCR (List.flatten [['\n']])).count '\n' = 1 ∧ (recvRun [['\n']]).2.1 = [] := by
  constructor <;> decide

/-- C1 (amended): feed any sequence of chunks to successive `recv` calls;
provided every newline-delimited segment of the carriage-return-stripped
concatenation fits in `MAX_BUFFER`, the completed lines extracted from the
buffer are exactly the segments except the trailing one (hence exactly `k`
of them when the text contains `k` newlines, regardless of chunk
boundaries), each with its carriage returns removed; of these only the
lines with non-blank content are logged, and the trailing segment stays
buffered. -/
theorem recv_line_framing (chunks : List (List Char))
    (hseg : ∀ seg ∈ splitNl (removeCR chunks.flatten), seg.length ≤ MAX_BUFFER) :
    recvRun chunks =
      ((splitNl (removeCR chunks.flatten)).dropLast,
       ((splitNl (removeCR chunks.flatten)).dropLast).filter
         (fun l => !(pyStrip l).isEmpty),
       (splitNl (removeCR chunks.flatten)).getLastD []) ∧
    ((splitNl (removeCR chunks.flatten)).dropLast).length
      = (removeCR chunks.flatten).count '\n' := by
  constructor
  · have := recvRunFrom_spec chunks [] (List.not_mem_nil _) (List.not_mem_nil _)
      (by simpa using hseg)
    simpa [recvRun] using this
  · have h1 := length_splitNl (removeCR chunks.flatten)
    have h2 : (splitNl (removeCR chunks.flatten)).length
        = ((splitNl (removeCR chunks.flatten)).dropLast).length + 1 := by
      obtain ⟨f, r, hfr⟩ :=
        List.exists_cons_of_ne_nil (splitNl_ne_nil (removeCR chunks.flatten))
      rw [hfr, List.length_dropLast]
      simp
    omega

/-- C1 witness for the amended theorem, at the chunk sequence
`["ab\ncd", "\r\ne"]`. -/
theorem recv_line_framing_witness :
    (∀ seg ∈ splitNl (removeCR (List.flatten ["ab\ncd".toList, "\r\ne".toList])),
      seg.length ≤ MAX_BUFFER) ∧
    (recvRun ["ab\ncd".toList, "\r\ne".toList] =
      ((splitNl (removeCR (List.flatten ["ab\ncd".toList, "\r\ne".toList]))).dropLast,
       ((splitNl (removeCR (List.flatten ["ab\ncd".toList, "\r\ne".toList]))).dropLast).filter
         (fun l => !(pyStrip l).isEmpty),
       (splitNl (removeCR (List.flatten ["ab\ncd".toList, "\r\ne".toList]))).getLastD []) ∧
     ((splitNl (removeCR (List.flatten ["ab\ncd".toList, "\r\ne".toList]))).dropLast).length
       = (removeCR (List.flatten ["ab\ncd".toList, "\r\ne".toList])).count '\n') :=
  ⟨by decide, recv_line_framing ["ab\ncd".toList, "\r\ne".toList] (by decide)⟩

/-- C2: after any sequence of `recv` calls the retained buffer never
exceeds `MAX_BUFFER`; moreover after any single call the retained buffer is
a suffix of the post-extraction remainder, of length
`min remainder.length MAX_BUFFER` — so whenever truncation occurs, exactly
the most recently appended `MAX_BUFFER` characters are kept. -/
theorem recv_buffer_bound :
    (∀ chunks : List (List Char), ((recvRun chunks).2.2).length ≤ MAX_BUFFER) ∧
    (∀ buf chunk : List Char,
      (recvStep buf chunk).2.2 <:+ (extractLines (removeCR (buf ++ chunk))).2 ∧
      ((recvStep buf chunk).2.2).length
        = min ((extractLines (removeCR (buf ++ chunk))).2).length MAX_BUFFER) := by
  have hstep : ∀ buf chunk : List Char,
      (recvStep buf chunk).2.2 = truncateBuf (extractLines (removeCR (buf ++ chunk))).2 := by
    intro buf chunk
    rfl
  constructor
  · have haux : ∀ (chunks : List (List Char)) (buf : List Char),
        buf.length ≤ MAX_BUFFER → ((recvRunFrom buf chunks).2.2).length ≤ MAX_BUFFER := by
      intro chunks
      induction chunks with
      | nil => intro buf hb; exact hb
      | cons ch rest ih =>
        intro buf hb
        show ((recvRunFrom (recvStep buf ch).2.2 rest).2.2).length ≤ MAX_BUFFER
        refine ih _ ?_
        rw [hstep, length_truncateBuf]
        omega
    intro chunks
    exact haux chunks [] (by simp [MAX_BUFFER])
  · intro buf chunk
    rw [hstep]
    exact ⟨truncateBuf_suffix _, length_truncateBuf _⟩

/-! ### Smash preprocessing (`REPLace.py`, `Uploader._smash_file`, lines 224-256)

`_smash_file` iterates over the input lines (each `line` carries its
trailing newline, which `strip`/`rstrip` remove again); the written file
consists of the produced lines, each terminated by a newline.  A file is
modelled as the list of its lines without their newline terminators. -/

/-- Python `l.rsplit('#', 1)[0]`: the text before the last occurrence of
the hash character when there is one, otherwise the whole string. -/
def rsplitHashHead (l : List Char) : List Char :=
  if '#' ∈ l then ((l.reverse.dropWhile (fun c => c ≠ '#')).drop 1).reverse else l

/-- One iteration of the loop of `_smash_file` (lines 234-252) on one input
line: `none` when nothing is written for it, `some out` when `out` plus a
newline is written.  The branches mirror lines 238-252:
blank line (write a bare newline only below level 1), full-comment line
dropped from level 2, trailing comment cut at level 3 via
`line.rstrip().rsplit('#', 1)[0].rstrip()`, otherwise `line.rstrip()`. -/
def smashLine (level : Nat) (line : List Char) : Option (List Char) :=
  let ls := pyStrip line
  if ls.isEmpty then
    if level < 1 then some [] else none
  else if ls.head? = some '#' ∧ 2 ≤ level then none
  else if '#' ∈ ls ∧ 3 ≤ level then
    some (pyRstrip (rsplitHashHead (pyRstrip line)))
  else some (pyRstrip line)

/-- `_smash_file` on a whole file given as its list of lines. -/
def smashFile (level : Nat) (lines : List (List Char)) : List (List Char) :=
  lines.filterMap (smashLine level)

example : smashFile 2 ["  # c".toList, "a = 1  ".toList, "".toList]
    = ["a = 1".toList] := by decide
example : smashFile 3 ["x = 2 # c".toList] = ["x = 2".toList] := by decide

theorem smashLine_one (line : List Char) :
    smashLine 1 line
      = if (pyStrip line).isEmpty then none else some (pyRstrip line) := by
  simp [smashLine]

theorem smashLine_two (line : List Char) :
    smashLine 2 line
      = if (pyStrip line).isEmpty then none
        else if (pyStrip line).head? = some '#' then none
        else some (pyRstrip line) := by
  simp [smashLine]

theorem smashLine_three (line : List Char) :
    smashLine 3 line
      = if (pyStrip line).isEmpty then none
        else if (pyStrip line).head? = some '#' then none
        else if '#' ∈ pyStrip line then some (pyRstrip (rsplitHashHead (pyRstrip line)))
        else some (pyRstrip line) := by
  simp [smashLine]

theorem pyRstrip_idem (l : List Char) : pyRstrip (pyRstrip l) = pyRstrip l := by
  rw [pyRstrip, pyRstrip, List.reverse_reverse, List.dropWhile_idempotent]

theorem pyStrip_rstrip (l : List Char) : pyStrip (pyRstrip l) = pyStrip l := by
  rw [pyStrip, pyStrip, pyRstrip_idem]

theorem mem_dropWhile_of_not {α : Type} {p : α → Bool} {c : α} (hc : p c = false) :
    ∀ l : List α, c ∈ l.dropWhile p ↔ c ∈ l := by
  intro l
  constructor
  · intro h
    exact (List.dropWhile_sublist p).mem h
  · intro h
    have := List.takeWhile_append_dropWhile p l
    rcases List.mem_append.1 (this ▸ h) with h1 | h1
    · have := List.mem_takeWhile_imp h1
      rw [hc] at this
      cases this
    · exact h1

theorem hash_mem_pyStrip_iff (l : List Char) : '#' ∈ pyStrip l ↔ '#' ∈ pyRstrip l := by
  rw [pyStrip, pyLstrip]
  exact mem_dropWhile_of_not (by decide) _

theorem filterMap_id_of_mem {α : Type} {f : α → Option α} :
    ∀ {L : List α}, (∀ a ∈ L, f a = some a) → L.filterMap f = L := by
  intro L
  induction L with
  | nil => intro _; rfl
  | cons a L ih =>
    intro h
    rw [List.filterMap_cons, h a (List.mem_cons_self a L),
      ih (fun b hb => h b (List.mem_cons_of_mem a hb))]

theorem smashLine_one_out {line l : List Char} (h : smashLine 1 line = some l) :
    l = pyRstrip line ∧ (pyStrip line).isEmpty = false := by
  rw [smashLine_one] at h
  by_cases hb : (pyStrip line).isEmpty
  · rw [if_pos hb] at h; cases h
  · rw [if_neg hb] at h
    exact ⟨(Option.some_inj.1 h).symm, by simpa using hb⟩

theorem smashLine_two_out {line l : List Char} (h : smashLine 2 line = some l) :
    l = pyRstrip line ∧ (pyStrip line).isEmpty = false ∧
      ¬((pyStrip line).head? = some '#') := by
  rw [smashLine_two] at h
  by_cases hb : (pyStrip line).isEmpty
  · rw [if_pos hb] at h; cases h
  · rw [if_neg hb] at h
    by_cases hh : (pyStrip line).head? = some '#'
    · rw [if_pos hh] at h; cases h
    · rw [if_neg hh] at h
      exact ⟨(Option.some_inj.1 h).symm, by simpa using hb, hh⟩

theorem smashFile_one_idem (lines : List (List Char)) :
    smashFile 1 (smashFile 1 lines) = smashFile 1 lines := by
  refine filterMap_id_of_mem ?_
  intro l hl
  obtain ⟨line, _hmem, hline⟩ := List.mem_filterMap.1 hl
  obtain ⟨rfl, hne⟩ := smashLine_one_out hline
  rw [smashLine_one, pyStrip_rstrip, if_neg (by simp [hne]), pyRstrip_idem]

theorem smashFile_two_idem (lines : List (List Char)) :
    smashFile 2 (smashFile 2 lines) = smashFile 2 lines := by
  refine filterMap_id_of_mem ?_
  intro l hl
  obtain ⟨line, _hmem, hline⟩ := List.mem_filterMap.1 hl
  obtain ⟨rfl, hne, hhead⟩ := smashLine_two_out hline
  rw [smashLine_two, pyStrip_rstrip, if_neg (by simp [hne]), if_neg hhead, pyRstrip_idem]

theorem smashFile_one_length (lines : List (List Char)) :
    (smashFile 1 lines).length
      = (lines.filter (fun l => !(pyStrip l).isEmpty)).length := by
  induction lines with
  | nil => rfl
  | cons line rest ih =>
    simp only [smashFile] at ih ⊢
    by_cases hb : (pyStrip line).isEmpty <;>
      simp [List.filterMap_cons, smashLine_one, List.filter_cons, hb, ih]

theorem smashFile_two_eq_filter (lines : List (List Char)) :
    smashFile 2 lines
      = (smashFile 1 lines).filter (fun l => ¬((pyStrip l).head? = some '#')) := by
  induction lines with
  | nil => rfl
  | cons line rest ih =>
    simp only [smashFile] at ih ⊢
    rw [List.filterMap_cons, List.filterMap_cons, smashLine_one, smashLine_two]
    by_cases hb : (pyStrip line).isEmpty
    · rw [if_pos hb, if_pos hb]
      exact ih
    · rw [if_neg hb, if_neg hb]
      by_cases hh : (pyStrip line).head? = some '#'
      · rw [if_pos hh, List.filter_cons, pyStrip_rstrip]
        simp only [hh, decide_True, Bool.not_true, Bool.false_eq_true, if_false]
        simpa [decide_not] using ih
      · rw [if_neg hh, List.filter_cons, pyStrip_rstrip]
        simp only [hh, decide_False, Bool.not_false, if_true]
        simpa [decide_not] using ih

theorem smashFile_three_eq_map (lines : List (List Char)) :
    smashFile 3 lines
      = (smashFile 2 lines).map
          (fun l => if '#' ∈ l then pyRstrip (rsplitHashHead l) else l) := by
  induction lines with
  | nil => rfl
  | cons line rest ih =>
    rw [smashFile, smashFile, List.filterMap_cons, List.filterMap_cons,
      smashLine_two, smashLine_three]
    by_cases hb : (pyStrip line).isEmpty
    · rw [if_pos hb, if_pos hb]
      exact ih
    · rw [if_neg hb, if_neg hb]
      by_cases hh : (pyStrip line).head? = some '#'
      · rw [if_pos hh, if_pos hh]
        exact ih
      · rw [if_neg hh, if_neg hh]
        by_cases hm : '#' ∈ pyStrip line
        · rw [if_pos hm, List.map_cons, if_pos ((hash_mem_pyStrip_iff line).1 hm)]
          exact congrArg _ ih
        · rw [if_neg hm, List.map_cons,
            if_neg (fun hc => hm ((hash_mem_pyStrip_iff line).2 hc))]
          exact congrArg _ ih

/-- C5 counterexample: at level 3, `rsplit('#', 1)` removes only the text
after the LAST hash character, so re-smashing the line `a#b#c` at level 3
removes more text: the first pass writes `a#b`, the second pass `a`.
Level-3 smashing is therefore not idempotent, contradicting the claim. -/
theorem smash_idem_cex :
    smashFile 3 (smashFile 3 ["a#b#c".toList]) ≠ smashFile 3 ["a#b#c".toList] := by
  decide

/-- C5 (amended): re-smashing at the same level is a no-op for levels 1 and
2 (but not 3, see the counterexample); level 1 keeps exactly the non-blank
lines (their count is preserved); level 2 additionally removes every line
whose first non-whitespace character is the hash; level 3 additionally cuts
each remaining line at its LAST hash character (not at the start of the
trailing comment) and strips trailing whitespace. -/
theorem smash_level_properties :
    (∀ lines, smashFile 1 (smashFile 1 lines) = smashFile 1 lines) ∧
    (∀ lines, smashFile 2 (smashFile 2 lines) = smashFile 2 lines) ∧
    (∀ lines, (smashFile 1 lines).length
      = (lines.filter (fun l => !(pyStrip l).isEmpty)).length) ∧
    (∀ lines, smashFile 2 lines
      = (smashFile 1 lines).filter (fun l => ¬((pyStrip l).head? = some '#'))) ∧
    (∀ lines, smashFile 3 lines
      = (smashFile 2 lines).map
          (fun l => if '#' ∈ l then pyRstrip (rsplitHashHead l) else l)) :=
  ⟨smashFile_one_idem, smashFile_two_idem, smashFile_one_length,
    smashFile_two_eq_filter, smashFile_three_eq_map⟩

/-! ### Python primitives that can raise

The decoders of `esp_wifi_serial.py` use list indexing, numeric parsing
and division, all of which can raise in Python; they are modelled in
`Except PyErr`.  Total Python operations (slicing, splitting, replacing)
are modelled as plain functions. -/

/-- Python exception kinds reachable in the decoders. -/
inductive PyErr
  | indexError
  | valueError
  | zeroDivisionError
deriving DecidableEq

instance exceptDecEq {ε α : Type} [DecidableEq ε] [DecidableEq α] :
    DecidableEq (Except ε α) := fun x y =>
  match x, y with
  | .ok a, .ok b =>
    if h : a = b then .isTrue (by rw [h]) else .isFalse (by intro hc; cases hc; exact h rfl)
  | .ok _, .error _ => .isFalse (by intro hc; cases hc)
  | .error _, .ok _ => .isFalse (by intro hc; cases hc)
  | .error e, .error f =>
    if h : e = f then .isTrue (by rw [h]) else .isFalse (by intro hc; cases hc; exact h rfl)

/-- Python `l[i]` for a non-negative index. -/
def pyGet {α : Type} (l : List α) (i : Nat) : Except PyErr α :=
  match l.get? i with
  | some a => .ok a
  | none => .error .indexError

/-- Python `l[i]` with a possibly negative index. -/
def pyIdx {α : Type} (l : List α) (i : Int) : Except PyErr α :=
  if i < 0 then
    if 0 ≤ (l.length : Int) + i then pyGet l ((l.length : Int) + i).toNat
    else .error .indexError
  else pyGet l i.toNat

/-- Python `l[i] = a` for a non-negative in-range index. -/
def pySet {α : Type} (l : List α) (i : Nat) (a : α) : Except PyErr (List α) :=
  if i < l.length then .ok (l.set i a) else .error .indexError

/-- Normalize a Python slice bound to an absolute position (total). -/
def pySliceIdx (len : Nat) (i : Int) : Nat :=
  if i < 0 then (max ((len : Int) + i) 0).toNat else min i.toNat len

/-- Python slicing `l[a:b]` (never raises). -/
def pySlice {α : Type} (l : List α) (a b : Int) : List α :=
  (l.take (pySliceIdx l.length b)).drop (pySliceIdx l.length a)

/-- Python `s.split(sep)` for a non-empty separator, with recursion fuel;
`l.length` fuel always suffices since every step consumes at least one
character of the remaining text. -/
def pySplitF (sep : List Char) : Nat → List Char → List (List Char)
  | _, [] => [[]]
  | 0, l => [l]
  | fuel + 1, c :: cs =>
    if sep.isPrefixOf (c :: cs) ∧ ¬sep.isEmpty then
      [] :: pySplitF sep fuel ((c :: cs).drop sep.length)
    else
      consHead c (pySplitF sep fuel cs)

/-- Python `s.split(sep)` (the sources only call it with non-empty
separators). -/
def pySplit (sep l : List Char) : List (List Char) := pySplitF sep l.length l

example : pySplit ", ".toList "a, b, c".toList = ["a".toList, "b".toList, "c".toList] := by
  decide
example : pySplit ['\''] "ip: x".toList = ["ip: x".toList] := by decide

/-- Python `s.replace(old, new)` for a non-empty `old`, with recursion
fuel as in `pySplitF`. -/
def pyReplaceF (old new : List Char) : Nat → List Char → List Char
  | _, [] => []
  | 0, l => l
  | fuel + 1, c :: cs =>
    if old.isPrefixOf (c :: cs) ∧ ¬old.isEmpty then
      new ++ pyReplaceF old new fuel ((c :: cs).drop old.length)
    else
      c :: pyReplaceF old new fuel cs

/-- Python `s.replace(old, new)`. -/
def pyReplace (old new l : List Char) : List Char := pyReplaceF old new l.length l

example : pyReplace "time=".toList [] "time=12.5".toList = "12.5".toList := by decide

/-- Python `needle in hay` for strings (contiguous substring test). -/
def isSub (needle : List Char) : List Char → Bool
  | [] => needle.isEmpty
  | c :: cs => needle.isPrefixOf (c :: cs) || isSub needle cs

example : isSub "OSError: -202".toList "xx OSError: -202 yy".toList = true := by decide
example : isSub "uping".toList "up ing".toList = false := by decide

/-- Decimal digit run to a number (helper for `int` / `float` parsing). -/
def digitsToNat (l : List Char) : Nat := l.foldl (fun a c => a * 10 + (c.toNat - 48)) 0

/-- Python `int(s)` on the string forms the sources can produce (optional
sign, decimal digits); anything else raises `ValueError`. -/
def pyInt (s : List Char) : Except PyErr Int :=
  let t := pyStrip s
  match t with
  | '-' :: rest =>
    if !rest.isEmpty ∧ rest.all Char.isDigit then .ok (-(digitsToNat rest : Int))
    else .error .valueError
  | '+' :: rest =>
    if !rest.isEmpty ∧ rest.all Char.isDigit then .ok (digitsToNat rest : Int)
    else .error .valueError
  | _ =>
    if !t.isEmpty ∧ t.all Char.isDigit then .ok (digitsToNat t : Int)
    else .error .valueError

/-- Python `float(s)` on plain decimal literals, as an exact rational
(binary floating point is approximated by exact rationals; no claim
depends on the numeric values).  Anything else raises `ValueError`. -/
def pyFloat (s : List Char) : Except PyErr Rat :=
  let t := pyStrip s
  let p : Int × List Char :=
    match t with
    | '-' :: rest => (-1, rest)
    | '+' :: rest => (1, rest)
    | _ => (1, t)
  let ip := p.2.takeWhile (fun c => c ≠ '.')
  let restDot := p.2.dropWhile (fun c => c ≠ '.')
  match restDot with
  | [] =>
    if !ip.isEmpty ∧ ip.all Char.isDigit then .ok ((p.1 : Rat) * (digitsToNat ip : Rat))
    else .error .valueError
  | _ :: fp =>
    if (!ip.isEmpty ∨ !fp.isEmpty) ∧ ip.all Char.isDigit ∧ fp.all Char.isDigit
        ∧ '.' ∉ fp then
      .ok ((p.1 : Rat) *
        ((digitsToNat ip : Rat) + (digitsToNat fp : Rat) / ((10 : Rat) ^ fp.length)))
    else .error .valueError

example : pyInt "4".toList = .ok 4 := by decide
example : pyInt "".toList = .error .valueError := by decide

/-! ### Structured response decoders (`esp_wifi_serial.py`, `TaEspClient`) -/

/-- The placeholder list of line 47:
`scan_data = ["ssid", "bssid", "channel", "rssi", "authmode", "hidden"]`. -/
def scanDataInit : List (List Char) :=
  ["ssid".toList, "bssid".toList, "channel".toList, "rssi".toList,
   "authmode".toList, "hidden".toList]

/-- The loop of lines 48-49:
`for i in range(len(network_data)): scan_data[i] = network_data[i].lstrip().rstrip()`,
walking `network_data` together with its running index (each
`network_data[i]` read is the walked element). -/
def setFields : List (List Char) → List (List Char) → Nat → Except PyErr (List (List Char))
  | sd, [], _ => .ok sd
  | sd, v :: vs, i => do
    let sd1 ← pySet sd i (pyRstrip (pyLstrip v))
    setFields sd1 vs (i + 1)

/-- The per-network loop of `__analyse_data_scan` (lines 44-50): keep only
networks splitting into exactly six comma-space fields. -/
def analyseDataScanGo : List (List Char) → Except PyErr (List (List (List Char)))
  | [] => .ok []
  | network :: rest => do
    let nd := pySplit ", ".toList network
    if nd.length = 6 then
      let e ← setFields scanDataInit nd 0
      let r ← analyseDataScanGo rest
      .ok (e :: r)
    else
      analyseDataScanGo rest

/-- `TaEspClient.__analyse_data_scan` (lines 33-51):
`data_split = data[2:-2].split("), (")` then the field loop. -/
def analyseDataScan (data : List Char) : Except PyErr (List (List (List Char))) :=
  analyseDataScanGo (pySplit "), (".toList (pySlice data 2 (-2)))

/-- Python values appearing in decoder results (strings or booleans). -/
inductive PyVal
  | str (s : List Char)
  | bool (b : Bool)
deriving DecidableEq

/-- The command string `"b.scan()"` echoed by the device (line 59). -/
def scanExpr : List Char := "b.scan()".toList

/-- `TaEspClient.scan` (lines 53-65) applied to the received line list:
`if len(data) == 3 and data[0] == expr` (short-circuit) selects the scan
decode, anything else yields `[[False]]`. -/
def taScan (data : List (List Char)) : Except PyErr (List (List PyVal)) :=
  if data.length = 3 then do
    let d0 ← pyGet data 0
    if d0 = scanExpr then do
      let d1 ← pyGet data 1
      let r ← analyseDataScan d1
      .ok (r.map (fun e => e.map PyVal.str))
    else .ok [[PyVal.bool false]]
  else .ok [[PyVal.bool false]]

/-- `TaEspClient.__analyse_ip_status` (lines 208-223): split the line on
the quote character and read parts 1, 3, 5, 7 into the result slots. -/
def analyseIpStatus (data : List Char) : Except PyErr (List (List Char)) := do
  let ip0 := ["own_ip".toList, "subnet_mask".toList, "dhcp_server".toList,
    "dns_server".toList]
  let sd := pySplit ['\''] data
  let v1 ← pyGet sd 1
  let ip1 ← pySet ip0 0 v1
  let v3 ← pyGet sd 3
  let ip2 ← pySet ip1 1 v3
  let v5 ← pyGet sd 5
  let ip3 ← pySet ip2 2 v5
  let v7 ← pyGet sd 7
  pySet ip3 3 v7

/-- Results of `__analyse_ping`: Python `False`, a tagged pair such as
`("error", "dns")`, or the `(target, ip, success, time)` tuple. -/
inductive PingRes
  | notParseable
  | errTag (a b : List Char)
  | stats (target ip : List Char) (success : Rat) (times : List Rat)
deriving DecidableEq

/-- The loop of lines 249-254 of `__analyse_ping`, iterating
`i in range(len(data) - 5)` and threading the `time` list and the
`success` value. -/
def pingLoop (data : List (List Char)) :
    List Nat → List Rat × Rat → Except PyErr (List Rat × Rat)
  | [], acc => .ok acc
  | i :: is, acc => do
    let di ← pyGet data (i + 2)
    let parts := pySplit [' '] di
    let times1 ←
      if 6 < parts.length then do
        let p6 ← pyGet parts 6
        if "time=".toList.isPrefixOf p6 then do
          let t ← pyFloat (pyReplace "time=".toList [] p6)
          pure (acc.1 ++ [t])
        else pure acc.1
      else pure acc.1
    let dm2 ← pyIdx data (-2)
    let success1 ←
      if (pySplit [' '] dm2).length = 2 then do
        let factors := pySplit ", ".toList (pyReplace [')'] [] (pyReplace ['('] [] dm2))
        let f1 ← pyGet factors 1
        let n1 ← pyInt f1
        let f0 ← pyGet factors 0
        let n0 ← pyInt f0
        if n0 = 0 then Except.error PyErr.zeroDivisionError
        else pure ((n1 : Rat) / (n0 : Rat) * 100)
      else pure acc.2
    pingLoop data is (times1, success1)

/-- `TaEspClient.__analyse_ping` (lines 225-256).  The `type(data) != list`
guard of line 235 is omitted: the embedded input is typed as a list. -/
def analysePing (data : List (List Char)) : Except PyErr PingRes :=
  if !(data.any (fun s => isSub "uping".toList s)) then .ok .notParseable
  else if data.any (fun s => isSub "EHOSTUNREACH".toList s) then
    .ok (.errTag "error".toList "connection".toList)
  else if data.any (fun s => isSub "OSError: -202".toList s) then
    .ok (.errTag "error".toList "dns".toList)
  else do
    let d0 ← pyGet data 0
    if isSub "uping".toList d0 then do
      let d1 ← pyGet data 1
      if isSub "PING ".toList d1 then do
        let std := pySplit [' '] d1
        let target ← pyGet std 1
        let ipraw ← pyGet std 2
        let ip := pyReplace [')'] [] (pyReplace ['('] [] (pyReplace [':'] [] ipraw))
        let acc ← pingLoop data (List.range (data.length - 5)) ([], 0)
        .ok (.stats target ip acc.2 acc.1)
      else .ok .notParseable
    else .ok .notParseable

/-! ### Totality and partiality of the decoders -/

theorem ok_bind {ε α β : Type} (a : α) (f : α → Except ε β) :
    (Except.ok a >>= f : Except ε β) = f a := rfl

theorem error_bind {ε α β : Type} (e : ε) (f : α → Except ε β) :
    (Except.error e >>= f : Except ε β) = .error e := rfl

theorem pyGet_ok {α : Type} {l : List α} {i : Nat} (h : i < l.length) :
    pyGet l i = .ok (l.get ⟨i, h⟩) := by
  rw [pyGet, List.get?_eq_get h]

theorem pyGet_err {α : Type} {l : List α} {i : Nat} (h : l.length ≤ i) :
    pyGet l i = .error .indexError := by
  rw [pyGet, List.get?_eq_none.2 h]

theorem pySet_ok {α : Type} {l : List α} {i : Nat} (a : α) (h : i < l.length) :
    pySet l i a = .ok (l.set i a) := if_pos h

theorem setFields_ok : ∀ (vals sd : List (List Char)) (i : Nat),
    i + vals.length ≤ sd.length →
    ∃ out, setFields sd vals i = .ok out ∧ out.length = sd.length := by
  intro vals
  induction vals with
  | nil => exact fun sd i _ => ⟨sd, rfl, rfl⟩
  | cons v vs ih =>
    intro sd i hlen
    have hi : i < sd.length := by
      simp only [List.length_cons] at hlen
      omega
    rw [setFields, pySet_ok _ hi, ok_bind]
    obtain ⟨out, hout, hlo⟩ := ih (sd.set i (pyRstrip (pyLstrip v))) (i + 1) (by
      simp only [List.length_set]
      simp only [List.length_cons] at hlen
      omega)
    exact ⟨out, hout, by rw [hlo, List.length_set]⟩

theorem analyseDataScanGo_ok : ∀ nets : List (List Char),
    ∃ out, analyseDataScanGo nets = .ok out := by
  intro nets
  induction nets with
  | nil => exact ⟨[], rfl⟩
  | cons network rest ih =>
    rw [analyseDataScanGo]
    by_cases h6 : (pySplit ", ".toList network).length = 6
    · rw [if_pos h6]
      obtain ⟨e, he, _⟩ := setFields_ok (pySplit ", ".toList network) scanDataInit 0 (by
        rw [h6]; rfl)
      rw [he, ok_bind]
      obtain ⟨r, hr⟩ := ih
      rw [hr, ok_bind]
      exact ⟨e :: r, rfl⟩
    · rw [if_neg h6]
      exact ih

theorem taScan_ok (data : List (List Char)) : ∃ out, taScan data = .ok out := by
  by_cases h3 : data.length = 3
  · rw [taScan, if_pos h3]
    rw [pyGet_ok (show 0 < data.length by omega), ok_bind]
    by_cases h0 : data.get ⟨0, by omega⟩ = scanExpr
    · rw [if_pos h0]
      rw [pyGet_ok (show 1 < data.length by omega), ok_bind]
      obtain ⟨r, hr⟩ := analyseDataScanGo_ok
        (pySplit "), (".toList (pySlice (data.get ⟨1, by omega⟩) 2 (-2)))
      rw [analyseDataScan, hr, ok_bind]
      exact ⟨_, rfl⟩
    · rw [if_neg h0]
      exact ⟨_, rfl⟩
  · rw [taScan, if_neg h3]
    exact ⟨_, rfl⟩

theorem pySet_quad_zero (a b c d v : List Char) :
    pySet [a, b, c, d] 0 v = .ok [v, b, c, d] := rfl

theorem pySet_quad_one (a b c d v : List Char) :
    pySet [a, b, c, d] 1 v = .ok [a, v, c, d] := rfl

theorem pySet_quad_two (a b c d v : List Char) :
    pySet [a, b, c, d] 2 v = .ok [a, b, v, d] := rfl

theorem pySet_quad_three (a b c d v : List Char) :
    pySet [a, b, c, d] 3 v = .ok [a, b, c, v] := rfl

theorem analyseIpStatus_ok_iff (s : List Char) :
    (∃ out, analyseIpStatus s = .ok out) ↔ 8 ≤ (pySplit ['\''] s).length := by
  rw [analyseIpStatus]
  by_cases h7 : 7 < (pySplit ['\''] s).length
  · have h1 : 1 < (pySplit ['\''] s).length := by omega
    have h3 : 3 < (pySplit ['\''] s).length := by omega
    have h5 : 5 < (pySplit ['\''] s).length := by omega
    simp only [pyGet_ok h1, ok_bind, pySet_quad_zero,
      pyGet_ok h3, pySet_quad_one, pyGet_ok h5, pySet_quad_two,
      pyGet_ok h7, pySet_quad_three]
    constructor
    · intro _; omega
    · intro _; exact ⟨_, rfl⟩
  · constructor
    · rintro ⟨out, hout⟩
      exfalso
      by_cases h1 : 1 < (pySplit ['\''] s).length
      · simp only [pyGet_ok h1, ok_bind, pySet_quad_zero] at hout
        by_cases h3 : 3 < (pySplit ['\''] s).length
        · simp only [pyGet_ok h3, ok_bind, pySet_quad_one] at hout
          by_cases h5 : 5 < (pySplit ['\''] s).length
          · simp only [pyGet_ok h5, ok_bind, pySet_quad_two,
              pyGet_err (show (pySplit ['\''] s).length ≤ 7 by omega), error_bind] at hout
            cases hout
          · simp only [pyGet_err (show (pySplit ['\''] s).length ≤ 5 by omega),
              error_bind] at hout
            cases hout
        · simp only [pyGet_err (show (pySplit ['\''] s).length ≤ 3 by omega),
            error_bind] at hout
          cases hout
      · simp only [pyGet_err (show (pySplit ['\''] s).length ≤ 1 by omega),
          error_bind] at hout
        cases hout
    · intro h
      omega

/-- C4 counterexample: the ip-config decoder `__analyse_ip_status` is
applied to any received line containing `"ip:"` (lines 181-182, 204-205);
on a line with no quote characters it raises `IndexError` at
`split_data[1]` instead of returning a tagged unparseable value, so the
decoders are not all total. -/
theorem decoder_total_cex :
    analyseIpStatus "ip: 192.168.0.1".toList = .error .indexError := by decide

/-- C4 (amended): the scan decoder is total — on any line list it returns
a value (`[[False]]` on mismatched responses) and never raises; the
ip-config decoder returns a value exactly on lines that split into at
least eight quote-delimited parts and raises `IndexError` otherwise; the
ping decoder is not total either — for example it raises `IndexError` on
the single-line response `["uping"]` at `data[1]`. -/
theorem decoder_totality :
    (∀ data : List (List Char), ∃ out, taScan data = .ok out) ∧
    (∀ s : List Char,
      (∃ out, analyseIpStatus s = .ok out) ↔ 8 ≤ (pySplit ['\''] s).length) ∧
    analysePing ["uping".toList] = .error .indexError :=
  ⟨taScan_ok, analyseIpStatus_ok_iff, by decide⟩

/-- C6 counterexample: a response that contains `"OSError: -202"` but no
line containing `"uping"` is rejected by the first guard of
`__analyse_ping` (line 237) and decodes to `False`, not to
`("error", "dns")` — so the tagged error is not returned regardless of the
other content. -/
theorem ping_dns_cex :
    analysePing ["OSError: -202".toList] = .ok .notParseable ∧
    (PingRes.notParseable ≠ PingRes.errTag "error".toList "dns".toList) := by
  constructor <;> decide

/-- C6 (amended): the ping decoder returns the tagged error
`("error", "dns")` on any response line list that contains `"uping"`
somewhere, contains `"EHOSTUNREACH"` nowhere (that check fires first), and
contains `"OSError: -202"` in some line. -/
theorem ping_dns (data : List (List Char))
    (h1 : data.any (fun s => isSub "uping".toList s) = true)
    (h2 : data.any (fun s => isSub "EHOSTUNREACH".toList s) = false)
    (h3 : data.any (fun s => isSub "OSError: -202".toList s) = true) :
    analysePing data = .ok (.errTag "error".toList "dns".toList) := by
  rw [analysePing, h1]
  simp only [Bool.not_true, Bool.false_eq_true, if_false, h2, h3, if_true]

/-- C6 witness for the amended theorem, at the concrete response
`["uping failed", "OSError: -202"]`. -/
theorem ping_dns_witness :
    (["uping failed".toList, "OSError: -202".toList].any
      (fun s => isSub "uping".toList s) = true) ∧
    (["uping failed".toList, "OSError: -202".toList].any
      (fun s => isSub "EHOSTUNREACH".toList s) = false) ∧
    (["uping failed".toList, "OSError: -202".toList].any
      (fun s => isSub "OSError: -202".toList s) = true) ∧
    analysePing ["uping failed".toList, "OSError: -202".toList]
      = .ok (.errTag "error".toList "dns".toList) :=
  ⟨by decide, by decide, by decide,
    ping_dns ["uping failed".toList, "OSError: -202".toList]
      (by decide) (by decide) (by decide)⟩

/-! ### File upload protocol (`REPLace.py`, `Uploader._upload_file`,
lines 282-323, and `Uploader.send`, lines 158-178)

`_upload_file` first runs `_prepare_file` (line 293: the preprocessing to
a scratch copy — local file I/O), then checks `dry_run` (line 296), then
sends the open command (line 301), the chunk writes (lines 304-313) and
the close command (line 316) through `send`.  `send` writes the command
bytes, counts them into `bytes_sent`, sleeps, and drains via `recv`; a
`SerialException` from the transport write is re-raised as
`SerialConnectionException` (line 178) and `_upload_file` re-raises it
after logging (lines 321-323) — there is no `finally` clause.

The model parameterizes over the transport: `ok i` says whether the
`connection.write` of the i-th `send` succeeds, and `dev i` is the data
the i-th drain reads. -/

/-- `FILEBLOCKSIZE` from `REPLace.py` line 37. -/
def FILEBLOCKSIZE : Nat := 1024

/-- The read loop of lines 304-311: the file content in blocks of at most
`n` bytes (fuel version; `l.length` fuel always suffices for `n > 0`). -/
def chunksOfF {α : Type} (n : Nat) : Nat → List α → List (List α)
  | _, [] => []
  | 0, l => [l]
  | fuel + 1, l => l.take n :: chunksOfF n fuel (l.drop n)

/-- The file content in blocks of at most `n` bytes. -/
def chunksOf {α : Type} (n : Nat) (l : List α) : List (List α) := chunksOfF n l.length l

example : chunksOf 2 [1, 2, 3, 4, 5] = [[1, 2], [3, 4], [5]] := by decide

/-- The remote commands one `_upload_file` call synthesizes. -/
inductive RCmd
  | openW (path : List Char)      -- `outfile=open('<path>',mode='wb')`, line 301
  | writeChunk (data : List Nat)  -- `outfile.write(<data>)`, line 310
  | closeW                        -- `outfile.close()`, line 316
deriving DecidableEq

/-- The command sequence for one file: open, one write per chunk, close. -/
def uploadCmds (path : List Char) (fileBytes : List Nat) : List RCmd :=
  RCmd.openW path :: (chunksOf FILEBLOCKSIZE fileBytes).map RCmd.writeChunk
    ++ [RCmd.closeW]

/-- Hexadecimal digit for the bytes repr. -/
def hexDigit (n : Nat) : Char := if n < 10 then Char.ofNat (48 + n) else Char.ofNat (87 + n)

/-- Python repr of one byte inside a bytes literal. -/
def pyByteLit (b : Nat) : List Char :=
  if b = 92 then ['\\', '\\']
  else if b = 39 then ['\\', '\'']
  else if b = 9 then ['\\', 't']
  else if b = 10 then ['\\', 'n']
  else if b = 13 then ['\\', 'r']
  else if 32 ≤ b ∧ b ≤ 126 then [Char.ofNat b]
  else ['\\', 'x', hexDigit (b / 16), hexDigit (b % 16)]

/-- Python repr of a bytes object, as interpolated by the f-string of
line 310. -/
def pyBytesRepr (d : List Nat) : List Char :=
  'b' :: '\'' :: (d.map pyByteLit).flatten ++ ['\'']

/-- The command text sent for each `RCmd` (lines 301, 310, 316). -/
def renderCmd : RCmd → List Char
  | .openW p => "outfile=open(".toList ++ ['\''] ++ p ++ ['\''] ++ ",mode=".toList
      ++ ['\''] ++ "wb".toList ++ ['\''] ++ [')']
  | .writeChunk d => "outfile.write(".toList ++ pyBytesRepr d ++ [')']
  | .closeW => "outfile.close()".toList

/-- The mutable channel state of `Uploader` that `send`/`recv` touch:
`self.rbuffer` (line 69), `self.bytes_sent` (line 96),
`self.files_uploaded` (line 94). -/
structure Chan where
  rbuffer : List Char
  bytesSent : Nat
  filesUploaded : Nat
deriving DecidableEq

/-- Observable effects of one `_upload_file` call. -/
inductive UpEv
  | prepare           -- `_prepare_file` scratch I/O (line 293)
  | twrite (c : RCmd) -- `self.connection.write(...)` in `send` (line 173)
  | drain             -- the `recv` drain at the end of `send` (line 176)
deriving DecidableEq

/-- One non-dry `send` of command `c` (lines 168-178): on transport
success, the command bytes plus the carriage-return terminator are
written, `bytes_sent` grows by `len(cmd)` and the drain updates the
receive buffer; on transport failure the exception propagates before any
state change. -/
def sendCmd (ok : Bool) (devChunk : List Char) (st : Chan) (c : RCmd) :
    Except Unit (Chan × List UpEv) :=
  if ok then
    .ok ({ st with
            bytesSent := st.bytesSent + ((renderCmd c).length + 1),
            rbuffer := (recvStep st.rbuffer devChunk).2.2 },
         [UpEv.twrite c, UpEv.drain])
  else .error ()

/-- The sends of one `_upload_file` call in order, aborting at the first
failure (the raised exception skips the rest of the sequence). -/
def sendLoop (ok : Nat → Bool) (dev : Nat → List Char) :
    Chan → Nat → List RCmd → Chan × List UpEv × Bool
  | st, _, [] => (st, [], true)
  | st, i, c :: cs =>
    match sendCmd (ok i) (dev i) st c with
    | .ok p =>
      let q := sendLoop ok dev p.1 (i + 1) cs
      (q.1, p.2 ++ q.2.1, q.2.2)
    | .error _ => (st, [], false)

/-- `Uploader._upload_file` (lines 282-323): `_prepare_file` always runs
first, the dry-run check returns before any transport I/O, otherwise the
open/write/close sequence goes through `send` and `files_uploaded` is
bumped only after a fully successful sequence (line 318). -/
def uploadFile (dryRun : Bool) (ok : Nat → Bool) (dev : Nat → List Char)
    (path : List Char) (fileBytes : List Nat) (st : Chan) :
    Chan × List UpEv × Bool :=
  if dryRun then (st, [UpEv.prepare], true)
  else
    let q := sendLoop ok dev st 0 (uploadCmds path fileBytes)
    ({ q.1 with filesUploaded := q.1.filesUploaded + (if q.2.2 then 1 else 0) },
     UpEv.prepare :: q.2.1, q.2.2)

/-- `Uploader._connect` (lines 121-145): in dry-run it returns before
opening the port, writing the interrupt bytes or draining. -/
inductive ConnEv
  | openPort
  | twriteInterrupt
  | drainConn
deriving DecidableEq

/-- The transport effects of `_connect`. -/
def connectIO (dryRun : Bool) : List ConnEv :=
  if dryRun then [] else [ConnEv.openPort, ConnEv.twriteInterrupt, ConnEv.drainConn]

theorem sendLoop_cons (ok : Nat → Bool) (dev : Nat → List Char) (st : Chan)
    (i : Nat) (c : RCmd) (cs : List RCmd) :
    sendLoop ok dev st i (c :: cs)
      = if ok i then
          ((sendLoop ok dev { st with
              bytesSent := st.bytesSent + ((renderCmd c).length + 1),
              rbuffer := (recvStep st.rbuffer (dev i)).2.2 } (i + 1) cs).1,
           [UpEv.twrite c, UpEv.drain]
             ++ (sendLoop ok dev { st with
                  bytesSent := st.bytesSent + ((renderCmd c).length + 1),
                  rbuffer := (recvStep st.rbuffer (dev i)).2.2 } (i + 1) cs).2.1,
           (sendLoop ok dev { st with
              bytesSent := st.bytesSent + ((renderCmd c).length + 1),
              rbuffer := (recvStep st.rbuffer (dev i)).2.2 } (i + 1) cs).2.2)
        else (st, [], false) := by
  rw [sendLoop, sendCmd]
  by_cases h : ok i <;> simp [h]

theorem sendLoop_fail (ok : Nat → Bool) (dev : Nat → List Char) :
    ∀ (cmds : List RCmd) (st : Chan) (i k : Nat), k < cmds.length →
    ok (i + k) = false → (∀ j < k, ok (i + j) = true) →
    (sendLoop ok dev st i cmds).2.1
      = ((cmds.take k).map (fun c => [UpEv.twrite c, UpEv.drain])).flatten ∧
    (sendLoop ok dev st i cmds).2.2 = false := by
  intro cmds
  induction cmds with
  | nil =>
    intro st i k hk _ _
    exact absurd hk (by simp)
  | cons c cs ih =>
    intro st i k hk hfail hbefore
    cases k with
    | zero =>
      have h0 : ok i = false := by simpa using hfail
      rw [sendLoop_cons, if_neg (by simp [h0])]
      exact ⟨rfl, rfl⟩
    | succ k =>
      have h0 : ok i = true := by simpa using hbefore 0 (Nat.succ_pos k)
      rw [sendLoop_cons, if_pos h0]
      have hk1 : k < cs.length := by simpa using hk
      have hfail1 : ok (i + 1 + k) = false := by
        have he : i + 1 + k = i + (k + 1) := by omega
        rw [he]; exact hfail
      have hbefore1 : ∀ j < k, ok (i + 1 + j) = true := by
        intro j hj
        have he : i + 1 + j = i + (j + 1) := by omega
        rw [he]; exact hbefore (j + 1) (by omega)
      obtain ⟨htr, hfl⟩ := ih ({ st with
          bytesSent := st.bytesSent + ((renderCmd c).length + 1),
          rbuffer := (recvStep st.rbuffer (dev i)).2.2 }) (i + 1) k hk1 hfail1 hbefore1
      refine ⟨?_, hfl⟩
      rw [List.take_succ_cons, List.map_cons, List.flatten_cons]
      show [UpEv.twrite c, UpEv.drain]
          ++ (sendLoop ok dev { st with
                bytesSent := st.bytesSent + ((renderCmd c).length + 1),
                rbuffer := (recvStep st.rbuffer (dev i)).2.2 } (i + 1) cs).2.1
        = [UpEv.twrite c, UpEv.drain]
          ++ ((cs.take k).map (fun c => [UpEv.twrite c, UpEv.drain])).flatten
      rw [htr]

theorem closeW_not_mem_take {path : List Char} {fileBytes : List Nat} {k : Nat}
    (hk : k < (uploadCmds path fileBytes).length) :
    RCmd.closeW ∉ (uploadCmds path fileBytes).take k := by
  intro hmem
  have hlen : (uploadCmds path fileBytes).length
      = ((chunksOf FILEBLOCKSIZE fileBytes).map RCmd.writeChunk).length + 2 := by
    simp [uploadCmds]
  have hle : k ≤ (RCmd.openW path
      :: (chunksOf FILEBLOCKSIZE fileBytes).map RCmd.writeChunk).length := by
    simp only [List.length_cons]
    omega
  rw [uploadCmds] at hmem
  rw [show RCmd.openW path :: (chunksOf FILEBLOCKSIZE fileBytes).map RCmd.writeChunk
      ++ [RCmd.closeW]
      = (RCmd.openW path :: (chunksOf FILEBLOCKSIZE fileBytes).map RCmd.writeChunk)
        ++ [RCmd.closeW] by simp] at hmem
  rw [List.take_append_of_le_length hle] at hmem
  have := List.mem_of_mem_take hmem
  rcases List.mem_cons.1 this with h | h
  · cases h
  · obtain ⟨d, _, hd⟩ := List.mem_map.1 h
    cases hd

/-- C3 counterexample: when the transport write of the first chunk fails
(send index 1 raises, after the open at index 0 succeeded), the exception
propagates out of `_upload_file` — the remaining chunks are skipped AND
the remote close command is never attempted, contradicting the claim. -/
theorem upload_close_cex :
    (uploadFile false (fun i => i == 0) (fun _ => []) "f.py".toList [65]
        ⟨[], 0, 0⟩).2.1
      = [UpEv.prepare, UpEv.twrite (RCmd.openW "f.py".toList), UpEv.drain] ∧
    UpEv.twrite RCmd.closeW ∉
      (uploadFile false (fun i => i == 0) (fun _ => []) "f.py".toList [65]
        ⟨[], 0, 0⟩).2.1 ∧
    (uploadFile false (fun i => i == 0) (fun _ => []) "f.py".toList [65]
        ⟨[], 0, 0⟩).2.2 = false := by
  refine ⟨?_, ?_, ?_⟩ <;> decide

/-- C3 (amended): if the k-th send of a file's open/write/close sequence
fails (every earlier send having succeeded), `_upload_file` performs
exactly the first k commands, reports failure (the exception propagates),
and the remote close command is NOT attempted — there is no
close-on-error path. -/
theorem upload_abort_on_error (ok : Nat → Bool) (dev : Nat → List Char)
    (path : List Char) (fileBytes : List Nat) (st : Chan) (k : Nat)
    (hk : k < (uploadCmds path fileBytes).length)
    (hfail : ok k = false) (hbefore : ∀ j < k, ok j = true) :
    (uploadFile false ok dev path fileBytes st).2.2 = false ∧
    (uploadFile false ok dev path fileBytes st).2.1
      = UpEv.prepare ::
        (((uploadCmds path fileBytes).take k).map
          (fun c => [UpEv.twrite c, UpEv.drain])).flatten ∧
    UpEv.twrite RCmd.closeW ∉ (uploadFile false ok dev path fileBytes st).2.1 := by
  obtain ⟨htr, hfl⟩ := sendLoop_fail ok dev (uploadCmds path fileBytes) st 0 k hk
    (by simpa using hfail) (by simpa using hbefore)
  have hunfold : uploadFile false ok dev path fileBytes st
      = ({ (sendLoop ok dev st 0 (uploadCmds path fileBytes)).1 with
            filesUploaded :=
              (sendLoop ok dev st 0 (uploadCmds path fileBytes)).1.filesUploaded
                + (if (sendLoop ok dev st 0 (uploadCmds path fileBytes)).2.2
                   then 1 else 0) },
         UpEv.prepare :: (sendLoop ok dev st 0 (uploadCmds path fileBytes)).2.1,
         (sendLoop ok dev st 0 (uploadCmds path fileBytes)).2.2) := rfl
  refine ⟨by rw [hunfold]; exact hfl, by rw [hunfold, htr], ?_⟩
  rw [hunfold, htr]
  intro hmem
  rcases List.mem_cons.1 hmem with h | h
  · cases h
  · obtain ⟨l, hl, hcl⟩ := List.mem_flatten.1 h
    obtain ⟨cmd, hcmd, rfl⟩ := List.mem_map.1 hl
    rcases List.mem_cons.1 hcl with h2 | h2
    · cases h2
      exact closeW_not_mem_take hk hcmd
    · simp at h2

/-- C3 witness for the amended theorem: a one-chunk file whose chunk write
(send index 1) fails. -/
theorem upload_abort_on_error_witness :
    (1 < (uploadCmds "f.py".toList [65]).length) ∧
    ((fun i => i == 0) 1 = false) ∧
    (∀ j < 1, (fun i => i == 0) j = true) ∧
    ((uploadFile false (fun i => i == 0) (fun _ => []) "f.py".toList [65]
        ⟨[], 1, 2⟩).2.2 = false ∧
     (uploadFile false (fun i => i == 0) (fun _ => []) "f.py".toList [65]
        ⟨[], 1, 2⟩).2.1
       = UpEv.prepare ::
         (((uploadCmds "f.py".toList [65]).take 1).map
           (fun c => [UpEv.twrite c, UpEv.drain])).flatten ∧
     UpEv.twrite RCmd.closeW ∉
       (uploadFile false (fun i => i == 0) (fun _ => []) "f.py".toList [65]
        ⟨[], 1, 2⟩).2.1) :=
  ⟨by decide, by decide, by decide,
    upload_abort_on_error (fun i => i == 0) (fun _ => []) "f.py".toList [65]
      ⟨[], 1, 2⟩ 1 (by decide) (by decide) (by decide)⟩

/-- C8 counterexample: with dry-run enabled, `_prepare_file` has already
run when the dry-run check of line 296 fires — the step-3 preprocessing to
the scratch copy is NOT short-circuited, so the effect trace is
`[prepare]` and not empty. -/
theorem dryrun_cex :
    (uploadFile true (fun _ => true) (fun _ => []) "a.py".toList [65]
        ⟨[], 0, 0⟩).2.1 = [UpEv.prepare] ∧
    ([UpEv.prepare] : List UpEv) ≠ [] := by
  refine ⟨rfl, by decide⟩

/-- C8 (amended): with dry-run enabled, `_connect` performs no transport
I/O, and `_upload_file` performs no transport I/O and leaves the whole
channel state (receive buffer, bytes-sent counter, files-uploaded counter)
untouched — but it still runs the step-3 preprocessing to the scratch
copy before the dry-run check short-circuits steps 4-5. -/
theorem dryrun_short_circuit :
    connectIO true = [] ∧
    (∀ (ok : Nat → Bool) (dev : Nat → List Char) (path : List Char)
      (fileBytes : List Nat) (st : Chan),
      uploadFile true ok dev path fileBytes st = (st, [UpEv.prepare], true)) :=
  ⟨rfl, fun _ _ _ _ _ => rfl⟩

/-! ### Directory walk and file filtering (`REPLace.py`, `Uploader.upload`,
lines 376-405)

`upload` walks the source tree; at every level it prunes subdirectories
whose basename is in the exclude set (lines 378-381:
`dirs[:] = [d for d in dirs if d not in self.excludes]`, so excluded
directories are never descended into) and selects the files with
`f not in self.excludes and (not self.includes or f in self.includes)`
(lines 385-389).  Each selected file is uploaded under its relative path
(lines 401-405).  The `dirs.sort()` / `filtered_files.sort()` calls only
fix the visiting order and are omitted: the claim is about which files are
selected, which is order-independent.  The tree is the walked directory
structure; a path is the list of name segments relative to the root. -/

mutual
inductive FTree where
  | file (name : String)
  | dir (name : String) (children : FForest)
inductive FForest where
  | fnil
  | fcons (t : FTree) (ts : FForest)
end

mutual
/-- The selected file paths below one entry, given the walk prefix `pre`:
a file is kept by the filter of lines 385-389; an excluded directory is
pruned (lines 378-381) so nothing below it is selected. -/
def selectTree (ex inc : List String) (pre : List String) : FTree → List (List String)
  | .file n => if n ∉ ex ∧ (inc = [] ∨ n ∈ inc) then [pre ++ [n]] else []
  | .dir n ch => if n ∈ ex then [] else selectForest ex inc (pre ++ [n]) ch
/-- The selected file paths of all entries of a directory level. -/
def selectForest (ex inc : List String) (pre : List String) : FForest → List (List String)
  | .fnil => []
  | .fcons t ts => selectTree ex inc pre t ++ selectForest ex inc pre ts
end

mutual
/-- Whether `p` is the relative path of a file present in the tree. -/
def pathInTree : FTree → List String → Bool
  | .file n, p => p = [n]
  | .dir n ch, p =>
    match p with
    | [] => false
    | q :: qs => q = n ∧ pathInForest ch qs
/-- Whether `p` is the relative path of a file present in the forest. -/
def pathInForest : FForest → List String → Bool
  | .fnil, _ => false
  | .fcons t ts, p => pathInTree t p || pathInForest ts p
end

example : pathInForest (.fcons (.dir "sub" (.fcons (.file "b.py") .fnil)) .fnil)
    ["sub", "b.py"] = true := by decide
example : selectForest [] ["b.py"] []
      (.fcons (.file "a.py") (.fcons (.dir "sub" (.fcons (.file "b.py") .fnil)) .fnil))
    = [["sub", "b.py"]] := by decide
example : selectForest ["sub"] ["b.py"] []
      (.fcons (.dir "sub" (.fcons (.file "b.py") .fnil)) .fnil) = [] := by decide

mutual
theorem pathInTree_nil_false : ∀ t : FTree, pathInTree t [] = false
  | .file n => by simp [pathInTree]
  | .dir _ _ => rfl
theorem pathInForest_nil_false : ∀ ts : FForest, pathInForest ts [] = false
  | .fnil => rfl
  | .fcons t ts => by
    rw [pathInForest, pathInTree_nil_false t, pathInForest_nil_false ts]
    rfl
end

theorem pathInForest_ne_nil {ts : FForest} {p : List String}
    (h : pathInForest ts p = true) : p ≠ [] := by
  intro hp
  subst hp
  rw [pathInForest_nil_false ts] at h
  cases h

theorem getLastD_irrel {α : Type} {q : List α} (h : q ≠ []) (a b : α) :
    q.getLastD a = q.getLastD b := by
  obtain ⟨x, xs, rfl⟩ := List.exists_cons_of_ne_nil h
  rw [List.getLastD_eq_getLast?, List.getLastD_eq_getLast?,
    List.getLast?_eq_getLast (x :: xs) (List.cons_ne_nil x xs)]
  rfl

mutual
theorem selectTree_mem_iff (ex inc : List String) (hinc : inc ≠ []) :
    ∀ (t : FTree) (pre p : List String),
    p ∈ selectTree ex inc pre t ↔
      ∃ q, p = pre ++ q ∧ pathInTree t q = true ∧ q.getLastD "" ∈ inc ∧
        q.getLastD "" ∉ ex ∧ ∀ d ∈ q.dropLast, d ∉ ex
  | .file n => by
    intro pre p
    rw [selectTree]
    constructor
    · intro hmem
      by_cases hc : n ∉ ex ∧ (inc = [] ∨ n ∈ inc)
      · rw [if_pos hc] at hmem
        have hp : p = pre ++ [n] := List.mem_singleton.1 hmem
        subst hp
        refine ⟨[n], rfl, by simp [pathInTree], ?_, ?_, by simp⟩
        · rcases hc.2 with h | h
          · exact absurd h hinc
          · simpa [List.getLastD] using h
        · simpa [List.getLastD] using hc.1
      · rw [if_neg hc] at hmem
        exact absurd hmem (List.not_mem_nil p)
    · rintro ⟨q, rfl, hq, hin, hex, _⟩
      rw [pathInTree] at hq
      simp only [decide_eq_true_eq] at hq
      subst hq
      have hn_in : n ∈ inc := by simpa [List.getLastD] using hin
      have hn_ex : n ∉ ex := by simpa [List.getLastD] using hex
      rw [if_pos ⟨hn_ex, Or.inr hn_in⟩]
      exact List.mem_singleton.2 rfl
  | .dir n ch => by
    intro pre p
    rw [selectTree]
    by_cases hx : n ∈ ex
    · rw [if_pos hx]
      constructor
      · intro h
        exact absurd h (List.not_mem_nil p)
      · rintro ⟨q, rfl, hq, _hin, _hex, hdrop⟩
        exfalso
        cases q with
        | nil =>
          rw [pathInTree_nil_false] at hq
          cases hq
        | cons q0 qs =>
          rw [pathInTree] at hq
          simp only [Bool.and_eq_true, decide_eq_true_eq] at hq
          obtain ⟨rfl, hf⟩ := hq
          have hqs : qs ≠ [] := pathInForest_ne_nil hf
          have hmem : q0 ∈ (q0 :: qs).dropLast := by
            rw [List.dropLast_cons_of_ne_nil hqs]
            exact List.mem_cons_self _ _
          exact (hdrop q0 hmem) hx
    · rw [if_neg hx]
      rw [selectForest_mem_iff ex inc hinc ch (pre ++ [n]) p]
      constructor
      · rintro ⟨q, rfl, hq, hin, hex, hdrop⟩
        have hqne : q ≠ [] := pathInForest_ne_nil hq
        refine ⟨n :: q, by rw [List.append_assoc]; rfl, ?_, ?_, ?_, ?_⟩
        · rw [pathInTree]
          simp [hq]
        · rw [List.getLastD_cons, getLastD_irrel hqne n ""]
          exact hin
        · rw [List.getLastD_cons, getLastD_irrel hqne n ""]
          exact hex
        · rw [List.dropLast_cons_of_ne_nil hqne]
          intro d hd
          rcases List.mem_cons.1 hd with rfl | hd
          · exact hx
          · exact hdrop d hd
      · rintro ⟨q, rfl, hq, hin, hex, hdrop⟩
        cases q with
        | nil =>
          rw [pathInTree_nil_false] at hq
          cases hq
        | cons q0 qs =>
          rw [pathInTree] at hq
          simp only [Bool.and_eq_true, decide_eq_true_eq] at hq
          obtain ⟨rfl, hf⟩ := hq
          have hqs : qs ≠ [] := pathInForest_ne_nil hf
          refine ⟨qs, by rw [List.append_assoc]; rfl, hf, ?_, ?_, ?_⟩
          · rw [List.getLastD_cons, getLastD_irrel hqs q0 ""] at hin
            exact hin
          · rw [List.getLastD_cons, getLastD_irrel hqs q0 ""] at hex
            exact hex
          · intro d hd
            refine hdrop d ?_
            rw [List.dropLast_cons_of_ne_nil hqs]
            exact List.mem_cons_of_mem _ hd
theorem selectForest_mem_iff (ex inc : List String) (hinc : inc ≠ []) :
    ∀ (ts : FForest) (pre p : List String),
    p ∈ selectForest ex inc pre ts ↔
      ∃ q, p = pre ++ q ∧ pathInForest ts q = true ∧ q.getLastD "" ∈ inc ∧
        q.getLastD "" ∉ ex ∧ ∀ d ∈ q.dropLast, d ∉ ex
  | .fnil => by
    intro pre p
    rw [selectForest]
    constructor
    · intro h
      exact absurd h (List.not_mem_nil p)
    · rintro ⟨q, _, hq, _⟩
      rw [pathInForest] at hq
      cases hq
  | .fcons t ts => by
    intro pre p
    rw [selectForest, List.mem_append, selectTree_mem_iff ex inc hinc t pre p,
      selectForest_mem_iff ex inc hinc ts pre p]
    constructor
    · rintro (⟨q, h1, h2, h3, h4, h5⟩ | ⟨q, h1, h2, h3, h4, h5⟩)
      · exact ⟨q, h1, by rw [pathInForest, h2]; rfl, h3, h4, h5⟩
      · exact ⟨q, h1, by rw [pathInForest, h2]; simp, h3, h4, h5⟩
    · rintro ⟨q, h1, h2, h3, h4, h5⟩
      rw [pathInForest] at h2
      rcases Bool.or_eq_true_iff.1 h2 with h | h
      · exact Or.inl ⟨q, h1, h, h3, h4, h5⟩
      · exact Or.inr ⟨q, h1, h, h3, h4, h5⟩
end

/-- C7 counterexample: with the exclude set `{"sub"}` and the include set
`{"b.py"}` on the tree `{sub/b.py}`, the file `b.py` is in the include set
and not in the exclude set, yet it is not selected: the walk prunes the
excluded directory `sub` (lines 378-381) before ever seeing the file, so
"selected iff basename in includes and not in excludes" fails. -/
theorem upload_include_cex :
    pathInForest (.fcons (.dir "sub" (.fcons (.file "b.py") .fnil)) .fnil)
      ["sub", "b.py"] = true ∧
    "b.py" ∈ ["b.py"] ∧ "b.py" ∉ ["sub"] ∧
    ["sub", "b.py"] ∉ selectForest ["sub"] ["b.py"] []
      (.fcons (.dir "sub" (.fcons (.file "b.py") .fnil)) .fnil) := by
  refine ⟨by decide, by decide, by decide, by decide⟩

/-- C7 (amended): with a non-empty include set, a path is selected for
upload if and only if it is a file path of the walked tree, its basename
is in the include set and not in the exclude set, AND none of its ancestor
directory names is in the exclude set (excluded directories are pruned
before descent); matching is exact on basenames, never on paths. -/
theorem upload_include_filter (ex inc : List String) (f : FForest) (p : List String)
    (hinc : inc ≠ []) :
    p ∈ selectForest ex inc [] f ↔
      (pathInForest f p = true ∧ p.getLastD "" ∈ inc ∧ p.getLastD "" ∉ ex ∧
       ∀ d ∈ p.dropLast, d ∉ ex) := by
  rw [selectForest_mem_iff ex inc hinc f [] p]
  constructor
  · rintro ⟨q, rfl, h2, h3, h4, h5⟩
    exact ⟨h2, h3, h4, h5⟩
  · rintro ⟨h2, h3, h4, h5⟩
    exact ⟨p, (List.nil_append p).symm, h2, h3, h4, h5⟩

/-- C7 witness for the amended theorem, on the spec scenario tree
`{a.py, sub/b.py}` with include set `{"b.py"}` and empty exclude set. -/
theorem upload_include_filter_witness :
    ((["b.py"] : List String) ≠ []) ∧
    (["sub", "b.py"] ∈ selectForest [] ["b.py"] []
        (.fcons (.file "a.py") (.fcons (.dir "sub" (.fcons (.file "b.py") .fnil)) .fnil)) ↔
      (pathInForest
          (.fcons (.file "a.py") (.fcons (.dir "sub" (.fcons (.file "b.py") .fnil)) .fnil))
          ["sub", "b.py"] = true ∧
       (["sub", "b.py"] : List String).getLastD "" ∈ ["b.py"] ∧
       (["sub", "b.py"] : List String).getLastD "" ∉ ([] : List String) ∧
       ∀ d ∈ (["sub", "b.py"] : List String).dropLast, d ∉ ([] : List String))) :=
  ⟨by decide,
    upload_include_filter [] ["b.py"]
      (.fcons (.file "a.py") (.fcons (.dir "sub" (.fcons (.file "b.py") .fnil)) .fnil))
      ["sub", "b.py"] (by decide)⟩

/-! ### Shared class-level signals
(`serial_connection_wrapper.py`, `PySignal` lines 12-34,
`SerialConnectionWrapper` lines 42-92)

The four `PySignal()` objects of lines 53-56 are created once, when the
class body is evaluated, and bound as CLASS attributes; `__init__`
(lines 58-92) writes only other names into the instance dictionary.
Python attribute lookup reads the instance dictionary first and falls
back to the class dictionary, so every instance resolves `recv_data`,
`connected`, `disconnected` and `error` to the same four heap objects.
The model makes the heap of `PySignal` objects explicit: a signal value
is a reference (index) into a heap of observer lists, and callbacks are
identified by numbers. -/

/-- The heap of `PySignal` objects: observer lists indexed by reference. -/
structure SigHeap where
  slots : List (List Nat)
deriving DecidableEq

/-- `PySignal.connect` (lines 18-21): append the callback to the slots
unless it is already registered. -/
def sigConnect (h : SigHeap) (sid : Nat) (cb : Nat) : SigHeap :=
  let slot := h.slots.getD sid []
  if cb ∈ slot then h else ⟨h.slots.set sid (slot ++ [cb])⟩

/-- `PySignal.emit` (lines 28-34): every registered callback is invoked in
order (the per-callback try/except isolates failures, so invocation
reaches each one); the result is the list of invoked callbacks. -/
def sigEmit (h : SigHeap) (sid : Nat) : List Nat := h.slots.getD sid []

/-- The class attributes of lines 52-56: the four signal names bound to
the four heap references created when the class body was evaluated. -/
def wrapperClassSignals : List (String × Nat) :=
  [("recv_data", 0), ("connected", 1), ("disconnected", 2), ("error", 3)]

/-- The signal heap right after the class body ran: four fresh `PySignal`
objects with empty observer lists. -/
def initSigHeap : SigHeap := ⟨[[], [], [], []]⟩

/-- Values `__init__` stores in the instance dictionary. -/
inductive IVal
  | str (s : String)
  | nat (n : Nat)
  | rat (q : Rat)
  | bool (b : Bool)
  | pynone
  | lock
  | queue
deriving DecidableEq

/-- An instance of `SerialConnectionWrapper`: its `__dict__`. -/
structure WInstance where
  idict : List (String × IVal)
deriving DecidableEq

/-- `SerialConnectionWrapper.__init__` (lines 58-92): the names written
into the instance dictionary, in order (lines 77-90) — none of the four
signal names is among them, so no instance attribute ever shadows the
class-level signals. -/
def wrapperInit (port : String) (baudrate : Nat) (timeout : Rat)
    (autoReset : Bool) (recvBufferSize : Nat) (recvTimeout : Rat) : WInstance :=
  ⟨[("port", .str port), ("baudrate", .nat baudrate), ("timeout", .rat timeout),
    ("auto_reset", .bool autoReset), ("recv_buffer_size", .nat recvBufferSize),
    ("recv_timeout", .rat recvTimeout), ("connection", .pynone),
    ("recv_thread", .pynone), ("stop_signal", .bool false),
    ("recv_lock", .lock), ("send_lock", .lock), ("recv_queue", .queue),
    ("connected_flag", .bool false)]⟩

/-- Python attribute lookup: the instance dictionary first, then the class
attributes; for a signal name the class attribute is the heap reference. -/
def getattrSig (inst : WInstance) (name : String) : Option (Sum IVal Nat) :=
  match inst.idict.lookup name with
  | some v => some (Sum.inl v)
  | none => (wrapperClassSignals.lookup name).map Sum.inr

theorem getD_set_self {α : Type} :
    ∀ (l : List α) (i : Nat) (a d : α), i < l.length → (l.set i a).getD i d = a := by
  intro l
  induction l with
  | nil =>
    intro i a d h
    exact absurd h (by simp)
  | cons x xs ih =>
    intro i a d h
    cases i with
    | zero => rfl
    | succ i =>
      have := ih i a d (by simpa using h)
      simpa [List.getD] using this

/-- Registering a callback through a signal reference makes any emit
through the same reference invoke it. -/
theorem sig_connect_emit (h : SigHeap) (sid : Nat) (cb : Nat)
    (hlen : sid < h.slots.length) : cb ∈ sigEmit (sigConnect h sid cb) sid := by
  rw [sigConnect]
  by_cases hmem : cb ∈ h.slots.getD sid []
  · rw [if_pos hmem]
    exact hmem
  · rw [if_neg hmem]
    show cb ∈ (h.slots.set sid (h.slots.getD sid [] ++ [cb])).getD sid []
    rw [getD_set_self _ _ _ _ hlen]
    simp

/-- C9: the four signals are class-level and shared — any two instances
built by `__init__` (with any constructor arguments) resolve each of the
four signal names to the same heap reference (the class attribute; no
instance attribute shadows it), and a callback registered through one
instance's signal is invoked when the signal is emitted through any other
instance, because both operate on the same observer list. -/
theorem wrapper_signals_shared :
    ∀ (p1 : String) (b1 : Nat) (t1 : Rat) (r1 : Bool) (s1 : Nat) (v1 : Rat)
      (p2 : String) (b2 : Nat) (t2 : Rat) (r2 : Bool) (s2 : Nat) (v2 : Rat),
    ∀ name ∈ ["recv_data", "connected", "disconnected", "error"],
      getattrSig (wrapperInit p1 b1 t1 r1 s1 v1) name
        = getattrSig (wrapperInit p2 b2 t2 r2 s2 v2) name ∧
      (∃ sid, getattrSig (wrapperInit p1 b1 t1 r1 s1 v1) name = some (Sum.inr sid) ∧
        ∀ (h : SigHeap) (cb : Nat), sid < h.slots.length →
          cb ∈ sigEmit (sigConnect h sid cb) sid) := by
  intro p1 b1 t1 r1 s1 v1 p2 b2 t2 r2 s2 v2 name hname
  simp only [List.mem_cons, List.not_mem_nil, or_false] at hname
  have hcommon : ∀ (p : String) (b : Nat) (t : Rat) (r : Bool) (s : Nat) (v : Rat),
      getattrSig (wrapperInit p b t r s v) name
        = (wrapperClassSignals.lookup name).map Sum.inr := by
    intro p b t r s v
    rcases hname with rfl | rfl | rfl | rfl
    · rfl
    · rfl
    · rfl
    · rfl
  refine ⟨by rw [hcommon, hcommon], ?_⟩
  rcases hname with rfl | rfl | rfl | rfl
  · exact ⟨0, by rw [hcommon]; rfl, fun h cb hl => sig_connect_emit h 0 cb hl⟩
  · exact ⟨1, by rw [hcommon]; rfl, fun h cb hl => sig_connect_emit h 1 cb hl⟩
  · exact ⟨2, by rw [hcommon]; rfl, fun h cb hl => sig_connect_emit h 2 cb hl⟩
  · exact ⟨3, by rw [hcommon]; rfl, fun h cb hl => sig_connect_emit h 3 cb hl⟩

/-- C9 witness at two concrete instances and the `recv_data` signal. -/
theorem wrapper_signals_shared_witness :
    ("recv_data" ∈ ["recv_data", "connected", "disconnected", "error"]) ∧
    (getattrSig (wrapperInit "COM3" 115200 (1/10) false 1024 1) "recv_data"
        = getattrSig (wrapperInit "COM7" 9600 (1/2) true 512 2) "recv_data" ∧
      (∃ sid, getattrSig (wrapperInit "COM3" 115200 (1/10) false 1024 1) "recv_data"
          = some (Sum.inr sid) ∧
        ∀ (h : SigHeap) (cb : Nat), sid < h.slots.length →
          cb ∈ sigEmit (sigConnect h sid cb) sid)) ∧
    7 ∈ sigEmit (sigConnect initSigHeap 0 7) 0 :=
  ⟨by decide,
    wrapper_signals_shared "COM3" 115200 (1/10) false 1024 1
      "COM7" 9600 (1/2) true 512 2 "recv_data" (by decide),
    by decide⟩

/-! ### Command-to-bytes conversion in `send`
(`REPLace.py`, `Uploader.send`, lines 158-178;
`esp_wifi_serial.py`, `TaEspClient.send`, lines 80-93)

Both `send` methods build `[ord(x) for x in line + '\r']` and hand the
integer list to `serial.Serial.write`.  The transport collaborator
converts the list to `bytes` BEFORE writing anything: a list element above
255 makes that conversion raise `ValueError` (bytes hold values 0..255),
so no byte reaches the wire — and neither `send` catches `ValueError`
(`Uploader.send` catches only `SerialException`, line 177;
`TaEspClient.send` catches nothing), so the send fails by raising.
`toWireBytes` models that conversion at the transport boundary,
validating left to right as `bytearray` does. -/

def toWireBytes : List Char → Except PyErr (List Nat)
  | [] => .ok []
  | c :: cs =>
    if c.toNat ≤ 255 then (toWireBytes cs).map (fun bs => c.toNat :: bs)
    else .error .valueError

/-- The bytes handed to the transport by one `send(line)`: the code
points of `line + '\r'` (line 172-173 of `REPLace.py`, line 91 of
`esp_wifi_serial.py`). -/
def sendWire (line : List Char) : Except PyErr (List Nat) :=
  toWireBytes (line ++ ['\r'])

theorem toWireBytes_ok {l : List Char} (h : ∀ c ∈ l, c.toNat ≤ 255) :
    toWireBytes l = .ok (l.map Char.toNat) := by
  induction l with
  | nil => rfl
  | cons c cs ih =>
    rw [toWireBytes, if_pos (h c (List.mem_cons_self c cs)),
      ih (fun d hd => h d (List.mem_cons_of_mem c hd))]
    rfl

/-- C10: `send` converts the command with `ord` per character, so it is
well-defined exactly for commands whose characters all have code points at
most 255: for every such command the wire bytes (before the appended
carriage-return terminator, byte 13) are the code points in order; and for
a command containing a character above 255 (here U+0100) the conversion
raises `ValueError` before writing, so the send fails with no bytes
written. -/
theorem send_ord_bytes :
    (∀ line : List Char, (∀ c ∈ line, c.toNat ≤ 255) →
      sendWire line = .ok (line.map Char.toNat ++ [13])) ∧
    sendWire [Char.ofNat 256] = .error .valueError := by
  constructor
  · intro line h
    rw [sendWire, toWireBytes_ok (by
      intro c hc
      rcases List.mem_append.1 hc with hc | hc
      · exact h c hc
      · rcases List.mem_singleton.1 hc with rfl
        decide)]
    rw [List.map_append]
    rfl
  · decide

/-- C10 witness for the all-bytes-small case, at the command `"ok"`. -/
theorem send_ord_bytes_witness :
    (∀ c ∈ "ok".toList, c.toNat ≤ 255) ∧
    sendWire "ok".toList = .ok ("ok".toList.map Char.toNat ++ [13]) :=
  ⟨by decide, send_ord_bytes.1 "ok".toList (by decide)⟩

end VaultSerial
